import Mathlib

set_option maxRecDepth 1000000

set_option maxHeartbeats 4000000

/-!
Verification of the load-balancer repository: a shallow embedding of the Go
routing engine (lb.go, strategy.go) and of the TypeScript visualizer's routing
logic (hashing module, App diff logic), with theorems settling the frozen
claims about ring construction, lookup, bounded movement on topology change,
snapshot purity, command processing, and the ring invariants.

Machine integers are modelled as Nat with explicit reduction modulo 2^32 where
the source works in 32-bit space.  Fallible selections return Option Backend
(Go returns a nil pointer for "no backend").  The Go strategies mutate receiver
state; they are modelled as state transformers.  Strings are modelled as their
Unicode code points; all keys and identities in the repository are ASCII, for
which the Go byte view (UTF-8) and the JS charCodeAt view (UTF-16 units)
coincide with the code-point view.
-/

namespace LoadBalancer

/-- 2^32, the fixed hash space (`totalSlots` in strategy.go). -/
def M32 : Nat := 4294967296

/-! ### SHA-256 (crypto/sha256), needed by strategy.go chPos -/

/-- 32-bit right rotation. -/
def rotr32 (x n : Nat) : Nat := ((x >>> n) ||| ((x <<< (32 - n)) % M32))

/-- SHA-256 small sigma 0. -/
def shaS0 (x : Nat) : Nat := (rotr32 x 7) ^^^ (rotr32 x 18) ^^^ (x >>> 3)

/-- SHA-256 small sigma 1. -/
def shaS1 (x : Nat) : Nat := (rotr32 x 17) ^^^ (rotr32 x 19) ^^^ (x >>> 10)

/-- SHA-256 big Sigma 0. -/
def shaB0 (a : Nat) : Nat := (rotr32 a 2) ^^^ (rotr32 a 13) ^^^ (rotr32 a 22)

/-- SHA-256 big Sigma 1. -/
def shaB1 (e : Nat) : Nat := (rotr32 e 6) ^^^ (rotr32 e 11) ^^^ (rotr32 e 25)

/-- SHA-256 choice function. -/
def shaCh (e f g : Nat) : Nat := (e &&& f) ^^^ ((e ^^^ 4294967295) &&& g)

/-- SHA-256 majority function. -/
def shaMaj (a b c : Nat) : Nat := (a &&& b) ^^^ (a &&& c) ^^^ (b &&& c)

/-- SHA-256 round constants. -/
def shaK : List Nat :=
  [1116352408, 1899447441, 3049323471, 3921009573, 961987163, 1508970993, 2453635748, 2870763221,
   3624381080, 310598401, 607225278, 1426881987, 1925078388, 2162078206, 2614888103, 3248222580,
   3835390401, 4022224774, 264347078, 604807628, 770255983, 1249150122, 1555081692, 1996064986,
   2554220882, 2821834349, 2952996808, 3210313671, 3336571891, 3584528711, 113926993, 338241895,
   666307205, 773529912, 1294757372, 1396182291, 1695183700, 1986661051, 2177026350, 2456956037,
   2730485921, 2820302411, 3259730800, 3345764771, 3516065817, 3600352804, 4094571909, 275423344,
   430227734, 506948616, 659060556, 883997877, 958139571, 1322822218, 1537002063, 1747873779,
   1955562222, 2024104815, 2227730452, 2361852424, 2428436474, 2756734187, 3204031479, 3329325298]

/-- SHA-256 initial hash values. -/
def shaH0 : List Nat :=
  [1779033703, 3144134277, 1013904242, 2773480762, 1359893119, 2600822924, 528734635, 1541459225]

/-- Extend a 16-word block to the 64-word message schedule (fuel = 48). -/
def schedule : Nat → List Nat → List Nat
  | 0, ws => ws
  | n + 1, ws =>
    let i := ws.length
    let w := (ws.getD (i - 16) 0 + shaS0 (ws.getD (i - 15) 0) + ws.getD (i - 7) 0
              + shaS1 (ws.getD (i - 2) 0)) % M32
    schedule n (ws ++ [w])

/-- One SHA-256 compression round on the 8-register state. -/
def shaRound (st : List Nat) (kw : Nat × Nat) : List Nat :=
  match st with
  | [a, b, c, d, e, f, g, h] =>
    let t1 := (h + shaB1 e + shaCh e f g + kw.1 + kw.2) % M32
    let t2 := (shaB0 a + shaMaj a b c) % M32
    [(t1 + t2) % M32, a, b, c, (d + t1) % M32, e, f, g]
  | other => other

/-- SHA-256 block compression. -/
def compress (hv : List Nat) (ws : List Nat) : List Nat :=
  let st := (shaK.zip ws).foldl shaRound hv
  List.zipWith (fun x y => (x + y) % M32) hv st

/-- Group bytes into big-endian 32-bit words (fuel-driven). -/
def bytesToWords : Nat → List Nat → List Nat
  | 0, _ => []
  | _, [] => []
  | n + 1, bs =>
    (bs.getD 0 0 * 16777216 + bs.getD 1 0 * 65536 + bs.getD 2 0 * 256 + bs.getD 3 0)
      :: bytesToWords n (bs.drop 4)

/-- Split a byte list into 64-byte blocks (fuel-driven). -/
def chunks64 : Nat → List Nat → List (List Nat)
  | 0, _ => []
  | _, [] => []
  | n + 1, bs => bs.take 64 :: chunks64 n (bs.drop 64)

/-- SHA-256 message padding: 0x80, zeros to 56 mod 64, 64-bit big-endian bit length. -/
def shaPad (msg : List Nat) : List Nat :=
  let len := msg.length
  let z := (119 - len % 64) % 64
  let bitLen := len * 8
  msg ++ [128] ++ List.replicate z 0 ++
    [(bitLen >>> 56) % 256, (bitLen >>> 48) % 256, (bitLen >>> 40) % 256, (bitLen >>> 32) % 256,
     (bitLen >>> 24) % 256, (bitLen >>> 16) % 256, (bitLen >>> 8) % 256, bitLen % 256]

/-- SHA-256 digest as eight 32-bit words. -/
def sum256Words (msg : List Nat) : List Nat :=
  let padded := shaPad msg
  (chunks64 padded.length padded).foldl
    (fun hv block => compress hv (schedule 48 (bytesToWords block.length block))) shaH0

/-- SHA-256 digest as 32 bytes (Go sha256.Sum256). -/
def sum256 (msg : List Nat) : List Nat :=
  (sum256Words msg).flatMap fun w => [(w >>> 24) % 256, (w >>> 16) % 256, (w >>> 8) % 256, w % 256]

/-- UTF-8 encoding of one code point. -/
def utf8Char (c : Nat) : List Nat :=
  if c < 128 then [c]
  else if c < 2048 then [192 ||| (c >>> 6), 128 ||| (c &&& 63)]
  else if c < 65536 then [224 ||| (c >>> 12), 128 ||| ((c >>> 6) &&& 63), 128 ||| (c &&& 63)]
  else [240 ||| (c >>> 18), 128 ||| ((c >>> 12) &&& 63), 128 ||| ((c >>> 6) &&& 63), 128 ||| (c &&& 63)]

/-- UTF-8 bytes of a string (Go string-to-byte-slice conversion). -/
def utf8Bytes (s : String) : List Nat := s.data.flatMap fun c => utf8Char c.toNat

/-- Big-endian 32-bit read of the first four bytes (encoding/binary BigEndian.Uint32). -/
def beUint32 (bs : List Nat) : Nat :=
  bs.getD 0 0 * 16777216 + bs.getD 1 0 * 65536 + bs.getD 2 0 * 256 + bs.getD 3 0

/-- strategy.go chPos: first 32 bits of SHA-256 of the key, reduced into totalSlots. -/
def chPos (key : String) (totalSlots : Nat) : Nat :=
  let v := beUint32 (sum256 (utf8Bytes key))
  if totalSlots = 0 then v else (v % totalSlots) % M32

/-! ### FNV-1a, Go flavor (hash/fnv New32a) and JS flavor (frontend hashing module) -/

/-- Go fnv.New32a over the UTF-8 bytes of a string: h = (h xor b) * 16777619 mod 2^32. -/
def fnvGo (s : String) : Nat :=
  (utf8Bytes s).foldl (fun h b => ((h ^^^ b) * 16777619) % M32) 2166136261

/-- JS ToInt32: interpret the low 32 bits of a Nat as a signed 32-bit value. -/
def jsToInt32 (n : Nat) : Int :=
  ((n % M32 : Nat) : Int) - (if n % M32 < 2147483648 then 0 else (M32 : Int))

/-- JS `x << k` on a 32-bit pattern, yielding the signed 32-bit result. -/
def jsShlToInt32 (n k : Nat) : Int := jsToInt32 (n <<< k)

/-- JS ToUint32 of an exact integer. -/
def jsToUint32 (i : Int) : Nat := (i % (M32 : Int)).toNat

/-- Frontend fnv1a (hashing module): shift-and-add expansion of the FNV prime
multiplication with JS 32-bit semantics.  Strings are modelled as code-point
sequences; all repository keys are ASCII, where this agrees with charCodeAt. -/
def fnv1a (s : String) : Nat :=
  s.data.foldl
    (fun h c =>
      let hx := h ^^^ c.toNat
      jsToUint32 (jsToInt32 hx + jsShlToInt32 hx 1 + jsShlToInt32 hx 4 + jsShlToInt32 hx 7
        + jsShlToInt32 hx 8 + jsShlToInt32 hx 24))
    2166136261

/-- Frontend hash32: fnv1a forced unsigned. -/
def hash32 (s : String) : Nat := fnv1a s % M32

/-! ### Binary search (Go sort.Search; also the inline loop in chPickServer) -/

/-- The sort.Search loop: invariant f false on [0,lo), f true on [hi,n).
Fuel-driven so that it is computable by kernel reduction; fuel n suffices. -/
def searchLoop (f : Nat → Bool) : Nat → Nat → Nat → Nat
  | 0, lo, _ => lo
  | fuel + 1, lo, hi =>
    if lo < hi then
      let mid := (lo + hi) / 2
      if f mid then searchLoop f fuel lo mid else searchLoop f fuel (mid + 1) hi
    else lo

/-- Go sort.Search(n, f): smallest index in [0,n] at which f becomes true,
assuming f is monotone (false prefix, then true). -/
def sortSearch (n : Nat) (f : Nat → Bool) : Nat := searchLoop f n 0 n

/-! ### Data model (lb.go) -/

/-- lb.go Backend.  The network fields that routing reads are Host and Port;
IsHealthy and NumRequests are carried along unused by selection. -/
structure Backend where
  Host : String
  Port : Nat
  IsHealthy : Bool
  NumRequests : Nat
deriving DecidableEq

/-- Backend.String(): the identity "host:port". -/
def Backend.string (b : Backend) : String := b.Host ++ ":" ++ toString b.Port

/-- lb.go IncomingReq (the connection handle is I/O and is not modelled). -/
structure IncomingReq where
  reqId : String
  key : String
deriving DecidableEq

/-! ### Simple hash strategy (strategy.go) -/

structure SimpleHashStrategy where
  Backends : List Backend
deriving DecidableEq

def SimpleHashStrategy.Init (_s : SimpleHashStrategy) (backends : List Backend) :
    SimpleHashStrategy :=
  { Backends := backends }

def SimpleHashStrategy.GetNextBackend (s : SimpleHashStrategy) (req : IncomingReq) :
    Option Backend :=
  if s.Backends.length = 0 then none
  else s.Backends.get? (fnvGo req.key % s.Backends.length)

def SimpleHashStrategy.RegisterBackend (s : SimpleHashStrategy) (b : Backend) :
    SimpleHashStrategy :=
  { Backends := s.Backends ++ [b] }

/-! ### Round-robin strategy (strategy.go) -/

structure RRBalancingStrategy where
  Index : Nat
  Backends : List Backend
deriving DecidableEq

def RRBalancingStrategy.Init (_s : RRBalancingStrategy) (backends : List Backend) :
    RRBalancingStrategy :=
  { Index := 0, Backends := backends }

/-- Advances the cursor by one modulo the length and returns the backend at the
new cursor: a mutating selection, returned as (result, new state). -/
def RRBalancingStrategy.GetNextBackend (s : RRBalancingStrategy) (_req : IncomingReq) :
    Option Backend × RRBalancingStrategy :=
  if s.Backends.length = 0 then (none, s)
  else
    let i := (s.Index + 1) % s.Backends.length
    (s.Backends.get? i, { s with Index := i })

def RRBalancingStrategy.RegisterBackend (s : RRBalancingStrategy) (b : Backend) :
    RRBalancingStrategy :=
  { s with Backends := s.Backends ++ [b] }

/-- Fire one request per key in the list, threading the round-robin state. -/
def rrRun (s : RRBalancingStrategy) : List String → List (Option Backend)
  | [] => []
  | k :: ks =>
    let r := s.GetNextBackend { reqId := "", key := k }
    r.1 :: rrRun r.2 ks

/-! ### Static strategy (strategy.go) -/

structure StaticBalancingStrategy where
  Index : Nat
  Backends : List Backend
deriving DecidableEq

def StaticBalancingStrategy.Init (_s : StaticBalancingStrategy) (backends : List Backend) :
    StaticBalancingStrategy :=
  { Index := 0, Backends := backends }

/-- Returns Backends[Index] when nonempty.  (Go would panic on an out-of-range
Index; no repository code path ever changes Index from 0.) -/
def StaticBalancingStrategy.GetNextBackend (s : StaticBalancingStrategy) (_req : IncomingReq) :
    Option Backend :=
  if s.Backends.length = 0 then none else s.Backends.get? s.Index

def StaticBalancingStrategy.RegisterBackend (s : StaticBalancingStrategy) (b : Backend) :
    StaticBalancingStrategy :=
  { s with Backends := s.Backends ++ [b] }

/-! ### Consistent hashing strategy (strategy.go, the real ring) -/

structure ConsistentHashStrategy where
  keys : List Nat
  backends : List Backend
  totalSlots : Nat
deriving DecidableEq

/-- strategy.go insert: binary-search the insertion point (first key >= k) and
splice (k, b) into the parallel arrays.  The non-append branch mirrors the Go
slice surgery append(keys[:i+1], keys[i:]...) followed by keys[i] = k. -/
def ConsistentHashStrategy.insert (s : ConsistentHashStrategy) (k : Nat) (b : Backend) :
    ConsistentHashStrategy :=
  let i := sortSearch s.keys.length (fun j => decide (k ≤ s.keys.getD j 0))
  if i = s.keys.length then
    { s with keys := s.keys ++ [k], backends := s.backends ++ [b] }
  else
    { s with
      keys := ((s.keys.take (i + 1)) ++ s.keys.drop i).set i k,
      backends := ((s.backends.take (i + 1)) ++ s.backends.drop i).set i b }

/-- strategy.go Init: reset the ring and insert one entry per backend at
chPos(identity). -/
def ConsistentHashStrategy.Init (s : ConsistentHashStrategy) (backends : List Backend) :
    ConsistentHashStrategy :=
  backends.foldl (fun t b => t.insert (chPos b.string t.totalSlots) b)
    { s with keys := [], backends := [] }

def ConsistentHashStrategy.RegisterBackend (s : ConsistentHashStrategy) (b : Backend) :
    ConsistentHashStrategy :=
  s.insert (chPos b.string s.totalSlots) b

/-- strategy.go GetNextBackend: hash the key to a slot, binary-search the first
ring position strictly greater than the slot, wrap via i mod len(backends). -/
def ConsistentHashStrategy.GetNextBackend (s : ConsistentHashStrategy) (req : IncomingReq) :
    Option Backend :=
  if s.backends.length = 0 then none
  else
    let slot := chPos req.key s.totalSlots
    let i := sortSearch s.keys.length (fun j => decide (slot < s.keys.getD j 0))
    s.backends.get? (i % s.backends.length)

/-- NewConsistentHashStrategy: totalSlots = 1 << 32, then Init. -/
def NewConsistentHashStrategy (backends : List Backend) : ConsistentHashStrategy :=
  ConsistentHashStrategy.Init { keys := [], backends := [], totalSlots := M32 } backends

/-! ### The load balancer (lb.go) -/

/-- The active strategy, a tagged variant over the four implementations. -/
inductive Strategy where
  | simple (s : SimpleHashStrategy)
  | rr (s : RRBalancingStrategy)
  | static (s : StaticBalancingStrategy)
  | ch (s : ConsistentHashStrategy)
deriving DecidableEq

/-- Interface dispatch of Init. -/
def Strategy.Init : Strategy → List Backend → Strategy
  | Strategy.simple s, bs => Strategy.simple (s.Init bs)
  | Strategy.rr s, bs => Strategy.rr (s.Init bs)
  | Strategy.static s, bs => Strategy.static (s.Init bs)
  | Strategy.ch s, bs => Strategy.ch (s.Init bs)

/-- Interface dispatch of GetNextBackend; only round robin mutates its state. -/
def Strategy.GetNextBackend : Strategy → IncomingReq → Option Backend × Strategy
  | Strategy.simple s, req => (s.GetNextBackend req, Strategy.simple s)
  | Strategy.rr s, req =>
    let r := s.GetNextBackend req
    (r.1, Strategy.rr r.2)
  | Strategy.static s, req => (s.GetNextBackend req, Strategy.static s)
  | Strategy.ch s, req => (s.GetNextBackend req, Strategy.ch s)

/-- lb.go LB (the events channel is I/O and is not modelled; command handling
below consumes one decoded command at a time, as the single control-plane
goroutine does). -/
structure LB where
  backends : List Backend
  strategy : Strategy
  demoKeys : List String
deriving DecidableEq

/-- The demo probe keys of InitLB. -/
def demoKeys : List String :=
  [ "10.0.0.1", "10.0.0.2", "10.0.0.3", "10.0.0.4",
    "10.0.0.5", "10.0.0.6", "10.0.0.7", "10.0.0.8",
    "10.0.0.9", "10.0.0.10", "10.0.0.11", "10.0.0.12"]

/-- The four seed backends of InitLB. -/
def seedBackends : List Backend :=
  [ { Host := "localhost", Port := 8081, IsHealthy := true, NumRequests := 0 },
    { Host := "localhost", Port := 8082, IsHealthy := true, NumRequests := 0 },
    { Host := "localhost", Port := 8083, IsHealthy := true, NumRequests := 0 },
    { Host := "localhost", Port := 8084, IsHealthy := true, NumRequests := 0 }]

/-- InitLB: seed topology, consistent hashing by default. -/
def initLB : LB :=
  { backends := seedBackends,
    strategy := Strategy.ch (NewConsistentHashStrategy seedBackends),
    demoKeys := demoKeys }

/-- lb.go snapshot: evaluate the active strategy on every demo key, producing
key -> identity (or the "<nil>" sentinel).  The strategy state is threaded:
each probe calls GetNextBackend on the live strategy. -/
def LB.snapshot (lb : LB) : List (String × String) × LB :=
  let r := lb.demoKeys.foldl
    (fun (acc : List (String × String) × Strategy) k =>
      let g := acc.2.GetNextBackend { reqId := "", key := k }
      (acc.1 ++ [(k, match g.1 with
                     | some b => b.string
                     | none => "<nil>")], g.2))
    ([], lb.strategy)
  (r.1, { lb with strategy := r.2 })

/-- Go map read with the string zero value for a missing key. -/
def mapGetD (m : List (String × String)) (k : String) : String :=
  ((m.find? (fun e => e.1 = k)).map (fun e => e.2)).getD ""

/-- The moved counter of lb.go printRemap (the non-nil before path): one per
demo key whose before and after identities differ. -/
def movedCount (demo : List String) (before after : List (String × String)) : Nat :=
  demo.countP (fun k => decide (mapGetD before k ≠ mapGetD after k))

/-- lb.go removeBackend: drop the first backend matching (host, port); report
whether one was found. -/
def LB.removeBackend (lb : LB) (host : String) (port : Nat) : Bool × LB :=
  match lb.backends.findIdx? (fun b => b.Host = host ∧ b.Port = port) with
  | none => (false, lb)
  | some idx => (true, { lb with backends := lb.backends.eraseIdx idx })

/-- The CMD_BackendAdd handler: before-snapshot, append, re-init the strategy,
after-snapshot (both snapshots thread live strategy state). -/
def processBackendAdd (lb : LB) (b : Backend) : LB :=
  let r1 := lb.snapshot
  let lb1 := r1.2
  let lb2 := { lb1 with backends := lb1.backends ++ [b] }
  let lb3 := { lb2 with strategy := lb2.strategy.Init lb2.backends }
  let r2 := lb3.snapshot
  r2.2

/-- The CMD_BackendRemove handler: before-snapshot, then remove by
("localhost", port); on success re-init and after-snapshot, otherwise only log. -/
def processBackendRemove (lb : LB) (port : Nat) : LB :=
  let r1 := lb.snapshot
  let lb1 := r1.2
  let rem := lb1.removeBackend "localhost" port
  if rem.1 then
    let lb2 := rem.2
    let lb3 := { lb2 with strategy := lb2.strategy.Init lb2.backends }
    let r2 := lb3.snapshot
    r2.2
  else rem.2

/-! ### Frontend routing logic (hashing module and App diff) -/

/-- Frontend Server. -/
structure Server where
  id : String
  port : Nat
  healthy : Bool
deriving DecidableEq

/-- Frontend simpleHashPick. -/
def simpleHashPick (servers : List Server) (key : String) : Option Server :=
  if servers.length = 0 then none
  else servers.get? (hash32 key % servers.length)

/-- Virtual replicas per server. -/
def REPLICAS : Nat := 64

/-- The unsorted replica entries: for each server, REPLICAS pairs at positions
hash32(id ++ "#" ++ r). -/
def pairsOf (servers : List Server) : List (Nat × Server) :=
  servers.flatMap fun s =>
    (List.range REPLICAS).map fun r => (hash32 (s.id ++ "#" ++ toString r), s)

/-- Insertion before the first pair of key >= the inserted key: the list form
of one sorted-insertion step (strategy.go insert does this by binary search;
a stable JS sort places each element this way relative to later-listed ties). -/
def pairInsert {α : Type} (k : Nat) (b : α) : List (Nat × α) → List (Nat × α)
  | [] => [(k, b)]
  | p :: rest => if k ≤ p.1 then (k, b) :: p :: rest else p :: pairInsert k b rest

/-- Stable ascending sort by key (JS Array.sort with comparator a.key - b.key
is stable). -/
def sortPairs {α : Type} : List (Nat × α) → List (Nat × α)
  | [] => []
  | p :: ps => pairInsert p.1 p.2 (sortPairs ps)

/-- Frontend ringPositions: replica entries sorted by position. -/
def ringPositions (servers : List Server) : List (Nat × Server) :=
  sortPairs (pairsOf servers)

/-- Frontend chPickServer: binary search the first ring position >= slot,
wrap via lo mod length. -/
def chPickServer (servers : List Server) (keyStr : String) : Option Server :=
  if servers.length = 0 then none
  else
    let pairs := ringPositions servers
    let slot := hash32 keyStr
    let ks := pairs.map (fun p => p.1)
    let lo := sortSearch pairs.length (fun m => decide (slot ≤ ks.getD m 0))
    (pairs.get? (lo % pairs.length)).map (fun p => p.2)

/-- JS object key lookup (undefined modelled as none). -/
def objGet (m : List (String × String)) (k : String) : Option String :=
  (m.find? (fun e => e.1 = k)).map (fun e => e.2)

/-- Array.from(new Set(xs)): first-occurrence deduplication. -/
def setDedup (xs : List String) : List String :=
  xs.foldl (fun acc k => if k ∈ acc then acc else acc ++ [k]) []

/-- Frontend DiffResult. -/
structure DiffResult where
  moved : Nat
  total : Nat
  rows : List (String × Option String × Option String × Bool)
deriving DecidableEq

/-- The App churn diff: union of before/after keys, one row per key, a row is
moved exactly when the before and after entries differ. -/
def tsDiff (beforeMap afterMap : List (String × String)) : DiffResult :=
  let keys := setDedup ((beforeMap.map (fun e => e.1)) ++ (afterMap.map (fun e => e.1)))
  { moved := keys.countP (fun k => decide (objGet beforeMap k ≠ objGet afterMap k)),
    total := keys.length,
    rows := keys.map fun k =>
      (k, objGet beforeMap k, objGet afterMap k,
        decide (objGet beforeMap k ≠ objGet afterMap k)) }

/-! ### Specification-rule definitions (taken from the wording of the spec, for
refinement comparison with the implementations) -/

/-- Modelled from the spec: "first entry with position >= slot, wrapping to
entry 0 if slot exceeds the maximum position" (ties picked, not skipped). -/
def specLookupGE {α : Type} (pairs : List (Nat × α)) (slot : Nat) : Option α :=
  match pairs.find? (fun p => decide (slot ≤ p.1)) with
  | some p => some p.2
  | none => pairs.head?.map (fun p => p.2)

/-- The rule the Go ring actually implements: first entry with position
strictly greater than the slot, wrapping to entry 0. -/
def specLookupGT {α : Type} (pairs : List (Nat × α)) (slot : Nat) : Option α :=
  match pairs.find? (fun p => decide (slot < p.1)) with
  | some p => some p.2
  | none => pairs.head?.map (fun p => p.2)

/-! ### Bridge constructions for the ring proofs -/

/-- Fold a backend list into a ring of (position, backend) pairs, as Init does
with the given totalSlots. -/
def pairFoldFrom (slots : Nat) (ps : List (Nat × Backend)) (backends : List Backend) :
    List (Nat × Backend) :=
  backends.foldl (fun acc b => pairInsert (chPos b.string slots) b acc) ps

/-- The pair-list view of the Go ring built from a backend list. -/
def pairFold (backends : List Backend) : List (Nat × Backend) := pairFoldFrom M32 [] backends

/-- The parallel arrays of a ConsistentHashStrategy agree with a pair list. -/
def StateInv (s : ConsistentHashStrategy) (ps : List (Nat × Backend)) : Prop :=
  s.keys = ps.map Prod.fst ∧ s.backends = ps.map Prod.snd

/-- Ascending key order on a pair list. -/
def SortedPairs {α : Type} (ps : List (Nat × α)) : Prop :=
  List.Pairwise (fun p q => p.1 ≤ q.1) ps

/-- The ring invariant of claim C10: sorted positions, parallel arrays of equal
length. -/
def chInv (s : ConsistentHashStrategy) : Prop :=
  List.Pairwise (fun a b => a ≤ b) s.keys ∧ s.keys.length = s.backends.length

instance : DecidablePred chInv := fun s => by
  unfold chInv
  infer_instance


/-! ### Concrete fixtures used by witnesses and counterexamples -/

/-- A fifth backend, as added at runtime by backend:add 8085. -/
def b8085 : Backend := { Host := "localhost", Port := 8085, IsHealthy := true, NumRequests := 0 }

/-- Five-backend topology: the seeds plus 8085. -/
def seedBackends5 : List Backend := seedBackends ++ [b8085]

/-- A load balancer running RoundRobin over five backends, cursor at 0. -/
def lbRR5 : LB :=
  { backends := seedBackends5,
    strategy := Strategy.rr { Index := 0, Backends := seedBackends5 },
    demoKeys := demoKeys }

/-- A backend whose identity localhost:8081 is already present in the seeds. -/
def dupBackend : Backend := { Host := "localhost", Port := 8081, IsHealthy := true, NumRequests := 0 }

/-- The first seed backend. -/
def b8081 : Backend := { Host := "localhost", Port := 8081, IsHealthy := true, NumRequests := 0 }

/-- The second seed backend. -/
def b8082 : Backend := { Host := "localhost", Port := 8082, IsHealthy := true, NumRequests := 0 }

/-! ### Helper lemmas: binary search characterization -/

theorem searchLoop_spec (f : Nat → Bool) (n : Nat)
    (hmono : ∀ i j, i ≤ j → j < n → f i = true → f j = true) :
    ∀ (fuel lo hi : Nat), lo ≤ hi → hi ≤ n → hi - lo ≤ fuel →
      (∀ j, j < lo → f j = false) → (∀ j, hi ≤ j → j < n → f j = true) →
      lo ≤ searchLoop f fuel lo hi ∧ searchLoop f fuel lo hi ≤ hi ∧
        (∀ j, j < searchLoop f fuel lo hi → f j = false) ∧
        (searchLoop f fuel lo hi < n → f (searchLoop f fuel lo hi) = true) := by
  intro fuel
  induction fuel with
  | zero =>
    intro lo hi h1 h2 h3 hlow hhigh
    simp only [searchLoop]
    exact ⟨le_refl _, h1, hlow, fun h => hhigh lo (by omega) h⟩
  | succ fuel ih =>
    intro lo hi h1 h2 h3 hlow hhigh
    by_cases hlt : lo < hi
    · have hmid1 : lo ≤ (lo + hi) / 2 := by omega
      have hmid2 : (lo + hi) / 2 < hi := by omega
      by_cases hf : f ((lo + hi) / 2) = true
      · have hrec := ih lo ((lo + hi) / 2) hmid1 (by omega) (by omega) hlow
          (fun j hj hjn => hmono ((lo + hi) / 2) j hj hjn hf)
        have e1 : searchLoop f (fuel + 1) lo hi = searchLoop f fuel lo ((lo + hi) / 2) := by
          simp only [searchLoop, if_pos hlt, hf, eq_self_iff_true, if_true]
        rw [e1]
        exact ⟨hrec.1, le_trans hrec.2.1 (le_of_lt hmid2), hrec.2.2⟩
      · have hf2 : f ((lo + hi) / 2) = false := by
          cases hfm : f ((lo + hi) / 2) with
          | true => exact absurd hfm hf
          | false => rfl
        have hlow2 : ∀ j, j < (lo + hi) / 2 + 1 → f j = false := by
          intro j hj
          by_cases hjlo : j < lo
          · exact hlow j hjlo
          · cases hfj : f j with
            | false => rfl
            | true =>
              have := hmono j ((lo + hi) / 2) (by omega) (by omega) hfj
              rw [this] at hf2
              exact absurd hf2 (by simp)
        have hrec := ih ((lo + hi) / 2 + 1) hi (by omega) h2 (by omega) hlow2 hhigh
        have e2 : searchLoop f (fuel + 1) lo hi = searchLoop f fuel ((lo + hi) / 2 + 1) hi := by
          simp only [searchLoop, if_pos hlt, hf2, Bool.false_eq_true, if_false]
        rw [e2]
        exact ⟨by omega, hrec.2.1, hrec.2.2⟩
    · simp only [searchLoop, if_neg hlt]
      exact ⟨le_refl _, h1, hlow, fun h => hhigh lo (by omega) h⟩

/-- sort.Search on a monotone predicate returns the least index at which the
predicate holds (or n). -/
theorem sortSearch_spec (f : Nat → Bool) (n : Nat)
    (hmono : ∀ i j, i ≤ j → j < n → f i = true → f j = true) :
    sortSearch n f ≤ n ∧ (∀ j, j < sortSearch n f → f j = false) ∧
      (sortSearch n f < n → f (sortSearch n f) = true) := by
  have h := searchLoop_spec f n hmono n 0 n (Nat.zero_le _) (le_refl _) (by omega)
    (fun j hj => absurd hj (Nat.not_lt_zero j)) (fun j hj hjn => absurd hjn (by omega))
  exact ⟨h.2.1, h.2.2.1, h.2.2.2⟩

/-! ### Helper lemmas: takeWhile, find?, pairInsert -/

theorem find_eq_head_dropWhile {α : Type} (p : α → Bool) :
    ∀ l : List α, l.find? p = (l.dropWhile (fun x => ! p x)).head? := by
  intro l
  induction l with
  | nil => rfl
  | cons x xs ih =>
    cases hx : p x with
    | true => simp [List.find?_cons, List.dropWhile_cons, hx]
    | false => simp [List.find?_cons, List.dropWhile_cons, hx, ih]

theorem takeWhile_eq_take_aux {α : Type} (q : α → Bool) :
    ∀ (l : List α) (i : Nat), i ≤ l.length →
      (∀ j (hj : j < l.length), j < i → q (l.get ⟨j, hj⟩) = true) →
      (∀ hi : i < l.length, q (l.get ⟨i, hi⟩) = false) →
      l.takeWhile q = l.take i ∧ l.dropWhile q = l.drop i := by
  intro l
  induction l with
  | nil =>
    intro i h1 _ _
    simp only [List.length_nil, Nat.le_zero] at h1
    subst h1
    simp
  | cons x xs ih =>
    intro i h1 h2 h3
    cases i with
    | zero =>
      have hx : q x = false := h3 (by simp)
      constructor
      · simp [List.takeWhile_cons, hx]
      · simp [List.dropWhile_cons, hx]
    | succ i2 =>
      have hx : q x = true := h2 0 (by simp) (Nat.succ_pos _)
      have hrec := ih i2 (by simpa using h1)
        (fun j hj hji => h2 (j + 1) (by simpa using hj) (by omega))
        (fun hi => h3 (by simpa using hi))
      constructor
      · simp [List.takeWhile_cons, hx, hrec.1]
      · simp [List.dropWhile_cons, hx, hrec.2]

/-- The binary search of sort.Search over the key column of a sorted pair list
computes exactly the takeWhile/dropWhile split at the predicate boundary. -/
theorem sortSearch_pairs {α : Type} (ps : List (Nat × α)) (p : Nat → Bool)
    (hup : ∀ x y, x ≤ y → p x = true → p y = true)
    (hs : SortedPairs ps) :
    sortSearch ps.length (fun j => p ((ps.map Prod.fst).getD j 0)) ≤ ps.length ∧
      ps.takeWhile (fun q => ! p q.1) =
        ps.take (sortSearch ps.length (fun j => p ((ps.map Prod.fst).getD j 0))) ∧
      ps.dropWhile (fun q => ! p q.1) =
        ps.drop (sortSearch ps.length (fun j => p ((ps.map Prod.fst).getD j 0))) := by
  have hgetD : ∀ (j : Nat) (hj : j < ps.length),
      (ps.map Prod.fst).getD j 0 = (ps.get ⟨j, hj⟩).1 := by
    intro j hj
    rw [List.getD_eq_get?, List.get?_eq_get (by simpa using hj)]
    simp
  have hkey : ∀ (i j : Nat) (hi : i < ps.length) (hj : j < ps.length), i ≤ j →
      (ps.get ⟨i, hi⟩).1 ≤ (ps.get ⟨j, hj⟩).1 := by
    intro i j hi hj hij
    rcases Nat.eq_or_lt_of_le hij with heq | hlt
    · subst heq; exact le_refl _
    · exact (List.pairwise_iff_get.mp hs) ⟨i, hi⟩ ⟨j, hj⟩ hlt
  have hmono : ∀ i j, i ≤ j → j < ps.length →
      (fun j => p ((ps.map Prod.fst).getD j 0)) i = true →
      (fun j => p ((ps.map Prod.fst).getD j 0)) j = true := by
    intro i j hij hj hi
    have hilt : i < ps.length := lt_of_le_of_lt hij hj
    simp only [hgetD i hilt] at hi
    simp only [hgetD j hj]
    exact hup _ _ (hkey i j hilt hj hij) hi
  have hchar := sortSearch_spec (fun j => p ((ps.map Prod.fst).getD j 0)) ps.length hmono
  obtain ⟨hle, hbefore, hat⟩ := hchar
  have hsplit := takeWhile_eq_take_aux (fun q => ! p q.1) ps
    (sortSearch ps.length (fun j => p ((ps.map Prod.fst).getD j 0))) hle
    (fun j hj hji => by
      have := hbefore j hji
      simp only [hgetD j hj] at this
      show (! (p (ps.get ⟨j, hj⟩).1)) = true
      simp only [List.get_eq_getElem] at this ⊢
      rw [this]
      rfl)
    (fun hi => by
      have := hat hi
      simp only [hgetD _ hi] at this
      show (! (p (ps.get ⟨_, hi⟩).1)) = false
      simp only [List.get_eq_getElem] at this ⊢
      rw [this]
      rfl)
  exact ⟨hle, hsplit.1, hsplit.2⟩

theorem pairInsert_eq_split {α : Type} (k : Nat) (b : α) :
    ∀ ps : List (Nat × α),
      pairInsert k b ps = ps.takeWhile (fun q => ! decide (k ≤ q.1)) ++
        (k, b) :: ps.dropWhile (fun q => ! decide (k ≤ q.1)) := by
  intro ps
  induction ps with
  | nil => rfl
  | cons q rest ih =>
    by_cases hq : k ≤ q.1
    · simp [pairInsert, hq, List.takeWhile_cons, List.dropWhile_cons]
    · simp [pairInsert, hq, List.takeWhile_cons, List.dropWhile_cons, ih]

theorem pairInsert_perm {α : Type} (k : Nat) (b : α) :
    ∀ ps : List (Nat × α), (pairInsert k b ps).Perm ((k, b) :: ps) := by
  intro ps
  induction ps with
  | nil => exact List.Perm.refl _
  | cons q rest ih =>
    by_cases hq : k ≤ q.1
    · simp only [pairInsert, if_pos hq]
      exact List.Perm.refl _
    · simp only [pairInsert, if_neg hq]
      exact List.Perm.trans (List.Perm.cons q ih) (List.Perm.swap (k, b) q rest)

theorem mem_pairInsert {α : Type} (k : Nat) (b : α) (ps : List (Nat × α)) (x : Nat × α) :
    x ∈ pairInsert k b ps ↔ x = (k, b) ∨ x ∈ ps := by
  rw [(pairInsert_perm k b ps).mem_iff]
  simp

theorem pairInsert_sorted {α : Type} (k : Nat) (b : α) :
    ∀ ps : List (Nat × α), SortedPairs ps → SortedPairs (pairInsert k b ps) := by
  intro ps
  induction ps with
  | nil =>
    intro _
    simp [pairInsert, SortedPairs]
  | cons q rest ih =>
    intro hs
    unfold SortedPairs at hs
    rw [List.pairwise_cons] at hs
    by_cases hq : k ≤ q.1
    · simp only [pairInsert, if_pos hq]
      unfold SortedPairs
      rw [List.pairwise_cons]
      constructor
      · intro x hx
        rcases List.mem_cons.mp hx with hxq | hxr
        · subst hxq; exact hq
        · exact le_trans hq (hs.1 x hxr)
      · exact List.Pairwise.cons hs.1 hs.2
    · simp only [pairInsert, if_neg hq]
      unfold SortedPairs
      rw [List.pairwise_cons]
      constructor
      · intro x hx
        rcases (mem_pairInsert k b rest x).mp hx with hxe | hxr
        · subst hxe; exact le_of_not_le hq
        · exact hs.1 x hxr
      · exact ih hs.2

theorem take_append_drop_set {α : Type} :
    ∀ (l : List α) (i : Nat) (x : α), i < l.length →
      ((l.take (i + 1)) ++ l.drop i).set i x = l.take i ++ x :: l.drop i := by
  intro l
  induction l with
  | nil =>
    intro i x h
    simp at h
  | cons y ys ih =>
    intro i x h
    cases i with
    | zero => simp
    | succ i2 =>
      have h2 : i2 < ys.length := by simpa using h
      simp only [List.take_succ_cons, List.drop_succ_cons, List.cons_append, List.set_cons_succ]
      rw [ih i2 x h2]

/-! ### Bridge lemmas: the parallel-array ring vs its pair-list view -/

theorem upward_le (k : Nat) :
    ∀ x y : Nat, x ≤ y → decide (k ≤ x) = true → decide (k ≤ y) = true := by
  intro x y hxy hx
  simp only [decide_eq_true_eq] at hx ⊢
  exact le_trans hx hxy

theorem upward_lt (k : Nat) :
    ∀ x y : Nat, x ≤ y → decide (k < x) = true → decide (k < y) = true := by
  intro x y hxy hx
  simp only [decide_eq_true_eq] at hx ⊢
  exact lt_of_lt_of_le hx hxy

theorem insert_totalSlots (s : ConsistentHashStrategy) (k : Nat) (b : Backend) :
    (s.insert k b).totalSlots = s.totalSlots := by
  simp only [ConsistentHashStrategy.insert]
  split
  · rfl
  · rfl

/-- One strategy.go insert step corresponds to pairInsert on the pair view. -/
theorem insert_bridge (s : ConsistentHashStrategy) (ps : List (Nat × Backend)) (k : Nat)
    (b : Backend) (hinv : StateInv s ps) (hs : SortedPairs ps) :
    StateInv (s.insert k b) (pairInsert k b ps) ∧ SortedPairs (pairInsert k b ps) := by
  obtain ⟨hk, hb⟩ := hinv
  obtain ⟨hle, htake, hdrop⟩ := sortSearch_pairs ps (fun x => decide (k ≤ x)) (upward_le k) hs
  have hsplit : pairInsert k b ps =
      ps.take (sortSearch ps.length fun j => decide (k ≤ (ps.map Prod.fst).getD j 0)) ++ (k, b) ::
        ps.drop (sortSearch ps.length fun j => decide (k ≤ (ps.map Prod.fst).getD j 0)) := by
    rw [pairInsert_eq_split, htake, hdrop]
  have hkeylen : s.keys.length = ps.length := by rw [hk, List.length_map]
  have hi0 : sortSearch s.keys.length (fun j => decide (k ≤ s.keys.getD j 0)) =
      sortSearch ps.length fun j => decide (k ≤ (ps.map Prod.fst).getD j 0) := by
    rw [hk, List.length_map]
  refine ⟨?_, pairInsert_sorted k b ps hs⟩
  simp only [ConsistentHashStrategy.insert, hi0]
  by_cases hcase :
      (sortSearch ps.length fun j => decide (k ≤ (ps.map Prod.fst).getD j 0)) = s.keys.length
  · rw [if_pos hcase]
    have hlen2 : (sortSearch ps.length fun j => decide (k ≤ (ps.map Prod.fst).getD j 0)) =
        ps.length := by omega
    constructor
    · show s.keys ++ [k] = _
      rw [hsplit, hlen2, List.take_length, List.drop_length, List.map_append, hk]
      rfl
    · show s.backends ++ [b] = _
      rw [hsplit, hlen2, List.take_length, List.drop_length, List.map_append, hb]
      rfl
  · rw [if_neg hcase]
    have hlt : (sortSearch ps.length fun j => decide (k ≤ (ps.map Prod.fst).getD j 0)) <
        ps.length := by omega
    constructor
    · show (s.keys.take _ ++ s.keys.drop _).set _ k = _
      rw [take_append_drop_set s.keys _ k (by omega), hsplit, List.map_append, List.map_cons,
        List.map_take, List.map_drop, hk]
    · show (s.backends.take _ ++ s.backends.drop _).set _ b = _
      have hblen : s.backends.length = ps.length := by rw [hb, List.length_map]
      rw [take_append_drop_set s.backends _ b (by omega), hsplit, List.map_append, List.map_cons,
        List.map_take, List.map_drop, hb]

/-- The Init fold corresponds to the pairFoldFrom fold. -/
theorem initFold_bridge :
    ∀ (L : List Backend) (s : ConsistentHashStrategy) (ps : List (Nat × Backend)) (slots : Nat),
      StateInv s ps → SortedPairs ps → s.totalSlots = slots →
      StateInv (L.foldl (fun t b => t.insert (chPos b.string t.totalSlots) b) s)
          (pairFoldFrom slots ps L) ∧
        SortedPairs (pairFoldFrom slots ps L) ∧
        (L.foldl (fun t b => t.insert (chPos b.string t.totalSlots) b) s).totalSlots = slots := by
  intro L
  induction L with
  | nil =>
    intro s ps slots h1 h2 h3
    exact ⟨h1, h2, h3⟩
  | cons b L2 ih =>
    intro s ps slots h1 h2 h3
    have hins := insert_bridge s ps (chPos b.string s.totalSlots) b h1 h2
    have htot := insert_totalSlots s (chPos b.string s.totalSlots) b
    rw [h3] at hins htot
    simp only [pairFoldFrom, List.foldl_cons]
    rw [h3]
    exact ih _ _ slots hins.1 hins.2 htot

/-- The pair view of a freshly built ring. -/
theorem chNew_bridge (L : List Backend) :
    StateInv (NewConsistentHashStrategy L) (pairFold L) ∧ SortedPairs (pairFold L) ∧
      (NewConsistentHashStrategy L).totalSlots = M32 := by
  have h := initFold_bridge L { keys := [], backends := [], totalSlots := M32 } [] M32
    ⟨rfl, rfl⟩ (List.Pairwise.nil) rfl
  exact h

/-- Generic bridge: the Go/TS binary-search lookup with an upward-closed key
predicate equals find?-with-wrap on a sorted nonempty pair list. -/
theorem search_lookup_generic {α : Type} (ps : List (Nat × α)) (p : Nat → Bool)
    (hup : ∀ x y, x ≤ y → p x = true → p y = true) (hs : SortedPairs ps) (_hne : ps ≠ []) :
    (ps.get? ((sortSearch ps.length fun j => p ((ps.map Prod.fst).getD j 0)) % ps.length)).map
        Prod.snd =
      match ps.find? (fun q => p q.1) with
      | some q => some q.2
      | none => ps.head?.map Prod.snd := by
  obtain ⟨hle, htake, hdrop⟩ := sortSearch_pairs ps p hup hs
  have hfind : ps.find? (fun q => p q.1) =
      (ps.drop (sortSearch ps.length fun j => p ((ps.map Prod.fst).getD j 0))).head? := by
    rw [find_eq_head_dropWhile, hdrop]
  by_cases hilen : (sortSearch ps.length fun j => p ((ps.map Prod.fst).getD j 0)) < ps.length
  · rw [Nat.mod_eq_of_lt hilen, hfind]
    rw [List.head?_drop, List.get?_eq_getElem?]
    rcases hx : ps[(sortSearch ps.length fun j => p ((ps.map Prod.fst).getD j 0))]? with _ | q
    · rw [List.getElem?_eq_none_iff] at hx
      omega
    · rfl
  · have hieq : (sortSearch ps.length fun j => p ((ps.map Prod.fst).getD j 0)) = ps.length := by
      omega
    rw [hieq, Nat.mod_self, hfind, hieq, List.drop_length]
    simp only [List.head?_nil]
    rw [List.get?_eq_getElem?, ← List.head?_eq_getElem?]

/-- The Go ring lookup equals the strictly-greater rule on the pair view. -/
theorem lookup_bridge (s : ConsistentHashStrategy) (ps : List (Nat × Backend))
    (req : IncomingReq) (hinv : StateInv s ps) (hs : SortedPairs ps) :
    s.GetNextBackend req = specLookupGT ps (chPos req.key s.totalSlots) := by
  obtain ⟨hk, hb⟩ := hinv
  by_cases hne : ps = []
  · subst hne
    simp only [List.map_nil] at hk hb
    simp [ConsistentHashStrategy.GetNextBackend, specLookupGT, hb]
  · have hlen : s.backends.length = ps.length := by rw [hb, List.length_map]
    have hpos : 0 < ps.length := List.length_pos.mpr hne
    have hgen := search_lookup_generic ps (fun x => decide (chPos req.key s.totalSlots < x))
      (upward_lt _) hs hne
    simp only [ConsistentHashStrategy.GetNextBackend, specLookupGT]
    rw [if_neg (by omega)]
    have hsr : sortSearch s.keys.length
        (fun j => decide (chPos req.key s.totalSlots < s.keys.getD j 0)) =
        sortSearch ps.length
          (fun j => decide (chPos req.key s.totalSlots < (ps.map Prod.fst).getD j 0)) := by
      rw [hk, List.length_map]
    rw [hsr, hlen, hb, List.get?_map]
    exact hgen

/-! ### Tracked insertion: one entry removed before or after the fold -/

/-- Inserting into a sorted list with a distinguished entry e present or absent
lands the new pair in corresponding positions on both sides. -/
theorem pairInsert_tracked {α : Type} (k : Nat) (y : α) (e : Nat × α) :
    ∀ (A B2 : List (Nat × α)), SortedPairs (A ++ e :: B2) →
      ∃ C D, pairInsert k y (A ++ e :: B2) = C ++ e :: D ∧
        pairInsert k y (A ++ B2) = C ++ D := by
  intro A
  induction A with
  | nil =>
    intro B2 hs
    simp only [List.nil_append]
    by_cases hk : k ≤ e.1
    · refine ⟨[(k, y)], B2, ?_, ?_⟩
      · simp [pairInsert, hk]
      · cases B2 with
        | nil => rfl
        | cons q rest =>
          have hq : e.1 ≤ q.1 := by
            unfold SortedPairs at hs
            simp only [List.nil_append] at hs
            rw [List.pairwise_cons] at hs
            exact hs.1 q (List.mem_cons_self q rest)
          simp [pairInsert, le_trans hk hq]
    · refine ⟨[], pairInsert k y B2, ?_, rfl⟩
      simp [pairInsert, hk]
  | cons a A2 ih =>
    intro B2 hs
    have hs2 : SortedPairs (A2 ++ e :: B2) := by
      unfold SortedPairs at hs ⊢
      rw [List.cons_append, List.pairwise_cons] at hs
      exact hs.2
    by_cases hk : k ≤ a.1
    · refine ⟨(k, y) :: a :: A2, B2, ?_, ?_⟩
      · simp [pairInsert, hk]
      · simp [pairInsert, hk]
    · obtain ⟨C, D, h1, h2⟩ := ih B2 hs2
      refine ⟨a :: C, D, ?_, ?_⟩
      · simp only [List.cons_append, pairInsert, if_neg hk, List.append_eq, h1]
      · simp only [List.cons_append, pairInsert, if_neg hk, List.append_eq, h2]

/-- Folding further backends preserves the tracked-entry decomposition. -/
theorem pairFoldFrom_tracked (slots : Nat) (e : Nat × Backend) :
    ∀ (S : List Backend) (A B2 : List (Nat × Backend)), SortedPairs (A ++ e :: B2) →
      ∃ C D, pairFoldFrom slots (A ++ e :: B2) S = C ++ e :: D ∧
        pairFoldFrom slots (A ++ B2) S = C ++ D ∧ SortedPairs (C ++ e :: D) := by
  intro S
  induction S with
  | nil =>
    intro A B2 hs
    exact ⟨A, B2, rfl, rfl, hs⟩
  | cons b S2 ih =>
    intro A B2 hs
    obtain ⟨C, D, h1, h2⟩ := pairInsert_tracked (chPos b.string slots) b e A B2 hs
    have hsC : SortedPairs (C ++ e :: D) := by
      rw [← h1]
      exact pairInsert_sorted _ _ _ hs
    obtain ⟨C2, D2, g1, g2, g3⟩ := ih C D hsC
    refine ⟨C2, D2, ?_, ?_, g3⟩
    · simp only [pairFoldFrom, List.foldl_cons]
      rw [h1]
      exact g1
    · simp only [pairFoldFrom, List.foldl_cons]
      rw [h2]
      exact g2

/-- Removing one ring entry changes the strictly-greater lookup of a slot only
if that entry was the selected one. -/
theorem specLookupGT_removed {α : Type} (e : Nat × α) (slot : Nat) (A D : List (Nat × α)) :
    specLookupGT (A ++ D) slot = specLookupGT (A ++ e :: D) slot ∨
      specLookupGT (A ++ e :: D) slot = some e.2 := by
  unfold specLookupGT
  rw [List.find?_append, List.find?_append]
  cases hA : A.find? (fun q => decide (slot < q.1)) with
  | some a0 =>
    left
    rfl
  | none =>
    simp only [Option.none_or]
    cases hpe : (decide (slot < e.1)) with
    | true =>
      right
      simp [List.find?_cons, hpe]
    | false =>
      rw [List.find?_cons, hpe]
      cases hD : D.find? (fun q => decide (slot < q.1)) with
      | some q =>
        left
        rfl
      | none =>
        cases A with
        | nil =>
          right
          simp
        | cons a A2 =>
          left
          simp

/-! ### Multiset content of the built rings -/

theorem pairFoldFrom_perm (slots : Nat) :
    ∀ (L : List Backend) (ps : List (Nat × Backend)),
      (pairFoldFrom slots ps L).Perm (ps ++ L.map (fun b => (chPos b.string slots, b))) := by
  intro L
  induction L with
  | nil =>
    intro ps
    simp [pairFoldFrom]
  | cons b L2 ih =>
    intro ps
    simp only [pairFoldFrom, List.foldl_cons, List.map_cons]
    have h1 := ih (pairInsert (chPos b.string slots) b ps)
    refine h1.trans ?_
    refine (((pairInsert_perm (chPos b.string slots) b ps).append_right _)).trans ?_
    exact List.perm_middle.symm

/-- The Go ring holds exactly one entry per backend, at chPos of its identity. -/
theorem pairFold_perm (L : List Backend) :
    (pairFold L).Perm (L.map (fun b => (chPos b.string M32, b))) := by
  have h := pairFoldFrom_perm M32 L []
  simpa using h

theorem sortPairs_perm {α : Type} : ∀ l : List (Nat × α), (sortPairs l).Perm l := by
  intro l
  induction l with
  | nil => exact List.Perm.refl _
  | cons p ps ih =>
    simp only [sortPairs]
    exact (pairInsert_perm p.1 p.2 (sortPairs ps)).trans (ih.cons p)

theorem sortPairs_sorted {α : Type} : ∀ l : List (Nat × α), SortedPairs (sortPairs l) := by
  intro l
  induction l with
  | nil => exact List.Pairwise.nil
  | cons p ps ih =>
    simp only [sortPairs]
    exact pairInsert_sorted p.1 p.2 _ ih

theorem ringPositions_perm (servers : List Server) :
    (ringPositions servers).Perm (pairsOf servers) := sortPairs_perm _

theorem ringPositions_sorted (servers : List Server) :
    SortedPairs (ringPositions servers) := sortPairs_sorted _

/-! ### Round-robin run structure -/

theorem rrRun_formula :
    ∀ (ks : List String) (s : RRBalancingStrategy), 0 < s.Backends.length →
      rrRun s ks = (List.range ks.length).map
        (fun j => s.Backends.get? ((s.Index + 1 + j) % s.Backends.length)) := by
  intro ks
  induction ks with
  | nil =>
    intro s h
    rfl
  | cons k ks2 ih =>
    intro s h
    have hlen : ¬ s.Backends.length = 0 := by omega
    simp only [rrRun, RRBalancingStrategy.GetNextBackend, if_neg hlen]
    rw [ih { s with Index := (s.Index + 1) % s.Backends.length } h]
    rw [List.length_cons, List.range_succ_eq_map]
    simp only [List.map_cons, List.map_map]
    congr 1
    apply List.map_congr_left
    intro a ha
    show s.Backends.get? (((s.Index + 1) % s.Backends.length + 1 + a) % s.Backends.length) =
      s.Backends.get? ((s.Index + 1 + (a + 1)) % s.Backends.length)
    congr 1
    rw [Nat.add_assoc ((s.Index + 1) % s.Backends.length) 1 a, Nat.mod_add_mod]
    congr 1
    omega

/-- K round-robin firings starting at any cursor return the backend list
rotated to start just after the cursor. -/
theorem rrRun_rotate (s : RRBalancingStrategy) (ks : List String)
    (h : 0 < s.Backends.length) (hks : ks.length = s.Backends.length) :
    rrRun s ks = (s.Backends.rotate ((s.Index + 1) % s.Backends.length)).map some := by
  rw [rrRun_formula ks s h, hks]
  apply List.ext_get?
  intro n
  by_cases hn : n < s.Backends.length
  · rw [List.get?_map, List.get?_map, List.get?_range hn, List.get?_rotate hn]
    rw [Nat.add_mod_mod, Nat.add_comm n (s.Index + 1)]
    show some (s.Backends.get? ((s.Index + 1 + n) % s.Backends.length)) =
      Option.map some (s.Backends.get? ((s.Index + 1 + n) % s.Backends.length))
    rw [List.get?_eq_get (Nat.mod_lt _ h)]
    rfl
  · rw [List.get?_eq_none.mpr, List.get?_eq_none.mpr]
    · rw [List.length_map, List.length_rotate]
      omega
    · rw [List.length_map, List.length_range]
      omega

/-! ### Frontend ring structure and remaining glue -/

theorem pairsOf_length (servers : List Server) :
    (pairsOf servers).length = 64 * servers.length := by
  induction servers with
  | nil => rfl
  | cons s ss ih =>
    simp only [pairsOf, REPLICAS, List.flatMap_cons, List.length_append, List.length_map,
      List.length_range] at ih ⊢
    simp only [List.length_cons]
    omega

/-- The frontend consistent-hash pick follows the first-position-ge rule with
wrap-around. -/
theorem chPick_bridge (servers : List Server) (key : String) :
    chPickServer servers key = specLookupGE (ringPositions servers) (hash32 key) := by
  by_cases hne : servers.length = 0
  · have hsnil : servers = [] := List.length_eq_zero.mp hne
    subst hsnil
    simp [chPickServer, ringPositions, pairsOf, sortPairs, specLookupGE]
  · have hlen2 : (ringPositions servers).length = 64 * servers.length := by
      rw [(ringPositions_perm servers).length_eq, pairsOf_length]
    have hps : ringPositions servers ≠ [] := by
      intro hcon
      rw [hcon] at hlen2
      simp only [List.length_nil] at hlen2
      omega
    have hgen := search_lookup_generic (ringPositions servers)
      (fun x => decide (hash32 key ≤ x)) (upward_le _) (ringPositions_sorted servers) hps
    simp only [chPickServer, if_neg hne, specLookupGE]
    exact hgen

theorem stateInv_zip (s : ConsistentHashStrategy) (h : chInv s) :
    StateInv s (s.keys.zip s.backends) ∧ SortedPairs (s.keys.zip s.backends) := by
  obtain ⟨hsort, hlen⟩ := h
  have h1 : (s.keys.zip s.backends).map Prod.fst = s.keys :=
    List.map_fst_zip s.keys s.backends (le_of_eq hlen)
  have h2 : (s.keys.zip s.backends).map Prod.snd = s.backends :=
    List.map_snd_zip s.keys s.backends (le_of_eq hlen.symm)
  refine ⟨⟨h1.symm, h2.symm⟩, ?_⟩
  have hx : List.Pairwise (fun a b => a ≤ b) ((s.keys.zip s.backends).map Prod.fst) := by
    rw [h1]
    exact hsort
  exact List.pairwise_map.mp hx

theorem chInv_of_stateInv (s : ConsistentHashStrategy) (ps : List (Nat × Backend))
    (hinv : StateInv s ps) (hs : SortedPairs ps) : chInv s := by
  obtain ⟨hk, hb⟩ := hinv
  constructor
  · rw [hk]
    exact List.pairwise_map.mpr hs
  · rw [hk, hb, List.length_map, List.length_map]

theorem get_mod_mem {α : Type} (l : List α) (n : Nat) (h : 0 < l.length) :
    ∃ x, l.get? (n % l.length) = some x ∧ x ∈ l := by
  have hlt : n % l.length < l.length := Nat.mod_lt _ h
  exact ⟨l.get ⟨n % l.length, hlt⟩, List.get?_eq_get hlt, List.get_mem l _ hlt⟩

/-! ### Small facts about selections never being none on nonempty lists -/

theorem get_mod_ne_none {α : Type} (l : List α) (n : Nat) (hpos : 0 < l.length) :
    l.get? (n % l.length) ≠ none := by
  obtain ⟨x, hx, _⟩ := get_mod_mem l n hpos
  rw [hx]
  exact fun hcon => Option.noConfusion hcon

/-! ### The claims -/

/-- Claim C9: diffing a snapshot mapping against itself counts zero moved rows,
both in the Go printRemap counter and in the frontend diff; a row moves exactly
when the before and after identity strings differ. -/
theorem c9_diff_self_zero (demo : List String) (m mm : List (String × String)) :
    movedCount demo m m = 0 ∧ (tsDiff mm mm).moved = 0 := by
  constructor
  · unfold movedCount
    rw [List.countP_eq_zero]
    intro k _
    simp
  · show (setDedup ((mm.map (fun e => e.1)) ++ (mm.map (fun e => e.1)))).countP
      (fun k => decide (objGet mm k ≠ objGet mm k)) = 0
    rw [List.countP_eq_zero]
    intro k _
    simp

/-- Claim C8: with a non-empty backend list, round robin advances the cursor by
one modulo K and returns the backend at the new cursor, ignoring the key; K
successive firings with any keys return the topology rotated to start just
after the cursor, hence each backend exactly once in insertion order. -/
theorem c8_round_robin_cycle (s : RRBalancingStrategy) (req : IncomingReq) (ks : List String)
    (h : 0 < s.Backends.length) (hks : ks.length = s.Backends.length) :
    (s.GetNextBackend req).1 = s.Backends.get? ((s.Index + 1) % s.Backends.length) ∧
      (s.GetNextBackend req).2 = { s with Index := (s.Index + 1) % s.Backends.length } ∧
      rrRun s ks = (s.Backends.rotate ((s.Index + 1) % s.Backends.length)).map some ∧
      (s.Backends.rotate ((s.Index + 1) % s.Backends.length)).Perm s.Backends := by
  have hlen : ¬ s.Backends.length = 0 := by omega
  refine ⟨?_, ?_, rrRun_rotate s ks h hks, List.rotate_perm _ _⟩
  · simp [RRBalancingStrategy.GetNextBackend, hlen]
  · simp [RRBalancingStrategy.GetNextBackend, hlen]

theorem c8_witness :
    ((RRBalancingStrategy.GetNextBackend { Index := 0, Backends := seedBackends }
        { reqId := "", key := "k" }).1 =
      seedBackends.get? ((0 + 1) % seedBackends.length)) ∧
    ((RRBalancingStrategy.GetNextBackend { Index := 0, Backends := seedBackends }
        { reqId := "", key := "k" }).2 =
      { Index := (0 + 1) % seedBackends.length, Backends := seedBackends }) ∧
    (rrRun { Index := 0, Backends := seedBackends } (demoKeys.take 4) =
      (seedBackends.rotate ((0 + 1) % seedBackends.length)).map some) ∧
    (seedBackends.rotate ((0 + 1) % seedBackends.length)).Perm seedBackends :=
  c8_round_robin_cycle { Index := 0, Backends := seedBackends } { reqId := "", key := "k" }
    (demoKeys.take 4) (by decide) (by decide)

/-- Claim C7: every strategy variant returns none exactly when its backend list
is empty (RoundRobin and Static taken at their Init states or any state for
RoundRobin), and a consistent-hash selection from a ring built over topology L
is a member of L. -/
theorem c7_none_iff_empty (ss : SimpleHashStrategy) (rs : RRBalancingStrategy)
    (st0 : StaticBalancingStrategy) (Lst L : List Backend) (s : ConsistentHashStrategy)
    (req : IncomingReq) (b : Backend)
    (hb : (NewConsistentHashStrategy L).GetNextBackend req = some b) :
    (ss.GetNextBackend req = none ↔ ss.Backends = []) ∧
      ((rs.GetNextBackend req).1 = none ↔ rs.Backends = []) ∧
      ((st0.Init Lst).GetNextBackend req = none ↔ Lst = []) ∧
      (s.GetNextBackend req = none ↔ s.backends = []) ∧
      b ∈ L := by
  refine ⟨⟨?_, ?_⟩, ⟨?_, ?_⟩, ⟨?_, ?_⟩, ⟨?_, ?_⟩, ?_⟩
  · intro hnone
    by_cases hlen : ss.Backends.length = 0
    · exact List.length_eq_zero.mp hlen
    · exfalso
      simp only [SimpleHashStrategy.GetNextBackend, if_neg hlen] at hnone
      exact get_mod_ne_none ss.Backends (fnvGo req.key) (Nat.pos_of_ne_zero hlen) hnone
  · intro hempty
    simp [SimpleHashStrategy.GetNextBackend, hempty]
  · intro hnone
    by_cases hlen : rs.Backends.length = 0
    · exact List.length_eq_zero.mp hlen
    · exfalso
      simp only [RRBalancingStrategy.GetNextBackend, if_neg hlen] at hnone
      exact get_mod_ne_none rs.Backends (rs.Index + 1) (Nat.pos_of_ne_zero hlen) hnone
  · intro hempty
    simp [RRBalancingStrategy.GetNextBackend, hempty]
  · intro hnone
    by_cases hlen : Lst.length = 0
    · exact List.length_eq_zero.mp hlen
    · exfalso
      simp only [StaticBalancingStrategy.GetNextBackend, StaticBalancingStrategy.Init,
        if_neg hlen] at hnone
      rw [List.get?_eq_get (Nat.pos_of_ne_zero hlen)] at hnone
      exact Option.noConfusion hnone
  · intro hempty
    simp [StaticBalancingStrategy.GetNextBackend, StaticBalancingStrategy.Init, hempty]
  · intro hnone
    by_cases hlen : s.backends.length = 0
    · exact List.length_eq_zero.mp hlen
    · exfalso
      simp only [ConsistentHashStrategy.GetNextBackend, if_neg hlen] at hnone
      exact get_mod_ne_none s.backends _ (Nat.pos_of_ne_zero hlen) hnone
  · intro hempty
    simp [ConsistentHashStrategy.GetNextBackend, hempty]
  · obtain ⟨hinv, hsort, htot⟩ := chNew_bridge L
    by_cases hlen : (NewConsistentHashStrategy L).backends.length = 0
    · simp only [ConsistentHashStrategy.GetNextBackend, if_pos hlen] at hb
      exact Option.noConfusion hb
    · simp only [ConsistentHashStrategy.GetNextBackend, if_neg hlen] at hb
      have hmem : b ∈ (NewConsistentHashStrategy L).backends := List.get?_mem hb
      rw [hinv.2] at hmem
      have hperm := (pairFold_perm L).map Prod.snd
      have hmem2 := hperm.mem_iff.mp hmem
      rw [List.map_map] at hmem2
      simpa using hmem2

theorem c7_witness :
    ((NewConsistentHashStrategy seedBackends).GetNextBackend
        { reqId := "", key := "10.0.0.1" } = some b8081) ∧
      (((SimpleHashStrategy.mk seedBackends).GetNextBackend
          { reqId := "", key := "10.0.0.1" } = none ↔
        (SimpleHashStrategy.mk seedBackends).Backends = []) ∧
      (((RRBalancingStrategy.mk 0 seedBackends).GetNextBackend
          { reqId := "", key := "10.0.0.1" }).1 = none ↔
        (RRBalancingStrategy.mk 0 seedBackends).Backends = []) ∧
      (((StaticBalancingStrategy.mk 0 []).Init seedBackends).GetNextBackend
          { reqId := "", key := "10.0.0.1" } = none ↔ seedBackends = []) ∧
      ((ConsistentHashStrategy.mk [3] [b8082] M32).GetNextBackend
          { reqId := "", key := "10.0.0.1" } = none ↔
        (ConsistentHashStrategy.mk [3] [b8082] M32).backends = []) ∧
      b8081 ∈ seedBackends) := by
  have hb : (NewConsistentHashStrategy seedBackends).GetNextBackend
      { reqId := "", key := "10.0.0.1" } = some b8081 := by decide
  exact ⟨hb, c7_none_iff_empty (SimpleHashStrategy.mk seedBackends)
    (RRBalancingStrategy.mk 0 seedBackends) (StaticBalancingStrategy.mk 0 []) seedBackends
    seedBackends (ConsistentHashStrategy.mk [3] [b8082] M32)
    { reqId := "", key := "10.0.0.1" } b8081 hb⟩

/-- Claim C10: the consistent-hash ring invariant (ascending positions, keys
and backends arrays of equal length) holds after Init on any backend list and
after RegisterBackend on any state satisfying it; the binary-search lookup
relies on exactly this invariant. -/
theorem c10_ring_invariant (s0 s : ConsistentHashStrategy) (L : List Backend) (b : Backend)
    (h : chInv s) : chInv (s0.Init L) ∧ chInv (s.RegisterBackend b) := by
  constructor
  · have hbr := initFold_bridge L { s0 with keys := [], backends := [] } [] s0.totalSlots
      ⟨rfl, rfl⟩ List.Pairwise.nil rfl
    exact chInv_of_stateInv _ _ hbr.1 hbr.2.1
  · obtain ⟨hinv, hsort⟩ := stateInv_zip s h
    have hbr := insert_bridge s _ (chPos b.string s.totalSlots) b hinv hsort
    exact chInv_of_stateInv _ _ hbr.1 hbr.2

theorem c10_witness :
    chInv (ConsistentHashStrategy.Init
        { keys := [], backends := [], totalSlots := M32 } seedBackends) ∧
      chInv (ConsistentHashStrategy.RegisterBackend
        { keys := [5, 7], backends := [b8081, b8082], totalSlots := M32 } b8085) :=
  c10_ring_invariant { keys := [], backends := [], totalSlots := M32 }
    { keys := [5, 7], backends := [b8081, b8082], totalSlots := M32 } seedBackends b8085
    (by decide)

/-- Claim C5, counterexample: processing AddBackend for the already-present
identity localhost:8081 is not a no-op; the topology changes. -/
theorem c5_counterexample :
    (processBackendAdd initLB dupBackend).backends ≠ initLB.backends := by
  decide

/-- Claim C5, amended: the AddBackend handler appends unconditionally — no
duplicate-identity check exists — so adding localhost:8081 to the seed
topology leaves two backends with that identity. -/
theorem c5_add_appends :
    (∀ (lb : LB) (b : Backend), (processBackendAdd lb b).backends = lb.backends ++ [b]) ∧
      (processBackendAdd initLB dupBackend).backends.countP
        (fun b => decide (b.string = "localhost:8081")) = 2 := by
  constructor
  · intro lb b
    rfl
  · decide

/-- Claim C4: computing a snapshot is not side-effect free — over the
five-backend topology with RoundRobin active and cursor 0, the snapshot of the
12 demo keys leaves the cursor at 12 mod 5 = 2. -/
theorem c4_snapshot_mutates_rr_cursor :
    lbRR5.snapshot.2.strategy = Strategy.rr { Index := 2, Backends := seedBackends5 } ∧
      lbRR5.snapshot.2.strategy ≠ lbRR5.strategy := by
  constructor
  · decide
  · decide

/-- Claim C6: a RemoveBackend command for an absent port leaves the topology
unchanged, but its before-snapshot advances an active RoundRobin cursor (from
0 to 2 over five backends), so the strategy state is not exactly as it was. -/
theorem c6_remove_not_found_mutates_rr :
    (processBackendRemove lbRR5 9999).backends = lbRR5.backends ∧
      (processBackendRemove lbRR5 9999).strategy =
        Strategy.rr { Index := 2, Backends := seedBackends5 } ∧
      lbRR5.strategy = Strategy.rr { Index := 0, Backends := seedBackends5 } := by
  refine ⟨?_, ?_, ?_⟩
  · decide
  · decide
  · decide

/-- Claim C1, counterexample: the Go ring built from one backend has exactly
one entry, not 64. -/
theorem c1_counterexample :
    (NewConsistentHashStrategy [dupBackend]).keys.length ≠ 64 := by
  decide

/-- Claim C1, amended: the frontend ring gives each server exactly 64 virtual
entries at positions hash32(id ++ "#" ++ r) for r < 64 (the sorted ring is a
permutation of exactly that multiset, of length 64·N), while the Go
ConsistentHashStrategy ring holds exactly one entry per backend, at
chPos(identity) — no virtual replicas. -/
theorem c1_ring_replica_structure (servers : List Server) (L : List Backend) :
    (ringPositions servers).Perm (pairsOf servers) ∧
      (ringPositions servers).length = 64 * servers.length ∧
      (NewConsistentHashStrategy L).keys.Perm (L.map (fun b => chPos b.string M32)) ∧
      (NewConsistentHashStrategy L).backends.Perm L := by
  refine ⟨ringPositions_perm servers, ?_, ?_, ?_⟩
  · rw [(ringPositions_perm servers).length_eq, pairsOf_length]
  · obtain ⟨hinv, hsort, htot⟩ := chNew_bridge L
    rw [hinv.1]
    have hp := (pairFold_perm L).map Prod.fst
    rw [List.map_map] at hp
    exact hp
  · obtain ⟨hinv, hsort, htot⟩ := chNew_bridge L
    rw [hinv.2]
    have hp := (pairFold_perm L).map Prod.snd
    rw [List.map_map] at hp
    have h2 : ∀ LL : List Backend, List.map (Prod.snd ∘ fun b => (chPos b.string M32, b)) LL = LL := by
      intro LL
      induction LL with
      | nil => rfl
      | cons x xs ih =>
        rw [List.map_cons, ih]
        rfl
    rw [h2 L] at hp
    exact hp

/-- Claim C2, counterexample: on the seed ring, the key localhost:8081 hashes
exactly onto the ring position of backend 8081, and the Go lookup does not
return the entry whose position equals the slot — it skips it. -/
theorem c2_counterexample :
    ConsistentHashStrategy.GetNextBackend (NewConsistentHashStrategy seedBackends)
        { reqId := "", key := "localhost:8081" } ≠
      specLookupGE ((NewConsistentHashStrategy seedBackends).keys.zip
          (NewConsistentHashStrategy seedBackends).backends)
        (chPos "localhost:8081" (NewConsistentHashStrategy seedBackends).totalSlots) := by
  decide

/-- Claim C2, amended: on a well-formed ring, the Go lookup returns the backend
of the first ring entry whose position is strictly greater than the slot,
wrapping to entry 0 — an entry whose position equals the slot exactly is
skipped, not picked.  The frontend chPickServer does follow the
greater-or-equal rule with wrap-around, picking on ties. -/
theorem c2_lookup_rule (s : ConsistentHashStrategy) (req : IncomingReq)
    (hlen : s.keys.length = s.backends.length)
    (hsort : List.Pairwise (fun a b => a ≤ b) s.keys) :
    s.GetNextBackend req = specLookupGT (s.keys.zip s.backends) (chPos req.key s.totalSlots) ∧
      ∀ (servers : List Server) (key : String),
        chPickServer servers key = specLookupGE (ringPositions servers) (hash32 key) := by
  constructor
  · obtain ⟨hinv, hsortz⟩ := stateInv_zip s ⟨hsort, hlen⟩
    exact lookup_bridge s _ req hinv hsortz
  · exact chPick_bridge

theorem c2_witness :
    (ConsistentHashStrategy.GetNextBackend
        { keys := [10, 20], backends := [b8081, b8082], totalSlots := M32 }
        { reqId := "", key := "a" } =
      specLookupGT (List.zip [10, 20] [b8081, b8082]) (chPos "a" M32)) ∧
      ∀ (servers : List Server) (key : String),
        chPickServer servers key = specLookupGE (ringPositions servers) (hash32 key) :=
  c2_lookup_rule { keys := [10, 20], backends := [b8081, b8082], totalSlots := M32 }
    { reqId := "", key := "a" } (by decide) (by decide)

/-- Claim C3: removing exactly one backend B from a ConsistentHash topology
changes a key's selection only if that selection was B — every key previously
mapped to a different backend keeps its backend after the rebuild. -/
theorem c3_bounded_movement (P S : List Backend) (B : Backend) (req : IncomingReq)
    (h : (NewConsistentHashStrategy (P ++ B :: S)).GetNextBackend req ≠ some B) :
    (NewConsistentHashStrategy (P ++ S)).GetNextBackend req =
      (NewConsistentHashStrategy (P ++ B :: S)).GetNextBackend req := by
  obtain ⟨hinv1, hsort1, htot1⟩ := chNew_bridge (P ++ B :: S)
  obtain ⟨hinv2, hsort2, htot2⟩ := chNew_bridge (P ++ S)
  obtain ⟨hinvP, hsortP, _⟩ := chNew_bridge P
  have hl1 := lookup_bridge _ _ req hinv1 hsort1
  have hl2 := lookup_bridge _ _ req hinv2 hsort2
  rw [htot1] at hl1
  rw [htot2] at hl2
  have hfold1 : pairFold (P ++ B :: S) =
      pairFoldFrom M32 (pairInsert (chPos B.string M32) B (pairFold P)) S := by
    unfold pairFold pairFoldFrom
    rw [List.foldl_append, List.foldl_cons]
  have hfold2 : pairFold (P ++ S) = pairFoldFrom M32 (pairFold P) S := by
    unfold pairFold pairFoldFrom
    rw [List.foldl_append]
  have hsplit := pairInsert_eq_split (chPos B.string M32) B (pairFold P)
  have hAB : pairFold P =
      (pairFold P).takeWhile (fun q => ! decide (chPos B.string M32 ≤ q.1)) ++
        (pairFold P).dropWhile (fun q => ! decide (chPos B.string M32 ≤ q.1)) :=
    (List.takeWhile_append_dropWhile _ _).symm
  have hsortIns : SortedPairs
      ((pairFold P).takeWhile (fun q => ! decide (chPos B.string M32 ≤ q.1)) ++
        (chPos B.string M32, B) ::
          (pairFold P).dropWhile (fun q => ! decide (chPos B.string M32 ≤ q.1))) := by
    rw [← hsplit]
    exact pairInsert_sorted _ _ _ hsortP
  obtain ⟨C, D, hc1, hc2, _⟩ :=
    pairFoldFrom_tracked M32 (chPos B.string M32, B) S _ _ hsortIns
  rw [hl1, hl2]
  rw [hfold1, hsplit, hc1, hfold2]
  conv_lhs => rw [hAB]
  rw [hc2]
  rcases specLookupGT_removed (chPos B.string M32, B) (chPos req.key M32) C D with heq | hsel
  · exact heq
  · exfalso
    apply h
    rw [hl1, hfold1, hsplit, hc1, hsel]

theorem c3_witness :
    ((NewConsistentHashStrategy ([] ++ b8082 :: [b8081])).GetNextBackend
        { reqId := "", key := "10.0.0.1" } ≠ some b8082) ∧
      (NewConsistentHashStrategy ([] ++ [b8081])).GetNextBackend
          { reqId := "", key := "10.0.0.1" } =
        (NewConsistentHashStrategy ([] ++ b8082 :: [b8081])).GetNextBackend
          { reqId := "", key := "10.0.0.1" } :=
  ⟨by decide, c3_bounded_movement [] [b8081] b8082 { reqId := "", key := "10.0.0.1" }
    (by decide)⟩

end LoadBalancer
